import Mathlib

/-!
Verification of the `skew-heap` crate (`src/src/lib.rs`): a max-ordered skew heap.

The Rust type `Option<Box<Node<T>>>` (a possibly absent owned tree node with fields
`l`, `r`, `item`) is embedded as the inductive `Skew.Tree`, whose `nil` constructor
is `None` and whose `node l r item` constructor is `Some(Box(Node { l, r, item }))`.
Rust's `T: Ord` is embedded as `[LinearOrder α]`.  Methods that mutate `&mut self`
are embedded as functions returning the updated value alongside their result.
-/

namespace Skew

/-- `Option<Box<Node<T>>>` from src/src/lib.rs lines 10-14: an optional owned
binary-tree node with left child `l`, right child `r`, and an `item`. -/
inductive Tree (α : Type) where
  | nil : Tree α
  | node (l r : Tree α) (item : α) : Tree α
deriving DecidableEq

/-- Number of nodes reachable from this (possibly absent) root. -/
def Tree.size : Tree α → Nat
  | .nil => 0
  | .node l r _ => l.size + r.size + 1

/-- The multiset of items stored in the tree. -/
def Tree.items : Tree α → Multiset α
  | .nil => 0
  | .node l r x => x ::ₘ (l.items + r.items)

/-- The spec's heap-order invariant: every node's item is greater than or equal to
every item in its left and in its right subtree. -/
def HeapOrdered [LinearOrder α] : Tree α → Prop
  | .nil => True
  | .node l r x =>
      (∀ y ∈ l.items, y ≤ x) ∧ (∀ y ∈ r.items, y ≤ x) ∧ HeapOrdered l ∧ HeapOrdered r

/-- Heap order is decidable, so concrete instances can be checked by `decide`. -/
def decHeapOrdered [LinearOrder α] : (t : Tree α) → Decidable (HeapOrdered t)
  | .nil => .isTrue trivial
  | .node l r _ =>
      letI : Decidable (HeapOrdered l) := decHeapOrdered l
      letI : Decidable (HeapOrdered r) := decHeapOrdered r
      inferInstanceAs (Decidable (_ ∧ _ ∧ _ ∧ _))

instance [LinearOrder α] (t : Tree α) : Decidable (HeapOrdered t) := decHeapOrdered t

/-- `merge` from src/src/lib.rs lines 17-41, the iterative meld written as the
recursion it computes.  Each loop iteration with both sides present settles one
node: if the slot's item is smaller the two nodes are swapped (lines 27-29), the
slot's children are exchanged (line 32), the incoming tree is installed in the
left-child slot, the displaced pre-swap right child becomes the new `b`
(line 34), and the loop descends into the left-child slot (line 35). -/
def merge [LinearOrder α] : Tree α → Tree α → Tree α
  | .nil, b => b
  | .node l r x, .nil => .node l r x
  | .node al ar ai, .node bl br bi =>
      if ai < bi then
        .node (merge (.node al ar ai) br) bl bi
      else
        .node (merge (.node bl br bi) ar) al ai
termination_by a b => a.size + b.size
decreasing_by
  · simp [Tree.size]; omega
  · simp [Tree.size]; omega

theorem merge_size [LinearOrder α] (a b : Tree α) :
    (merge a b).size = a.size + b.size := by
  induction a, b using merge.induct with
  | case1 b => simp [merge, Tree.size]
  | case2 l r x => simp [merge, Tree.size]
  | case3 al ar ai bl br bi hlt ih =>
      rw [merge, if_pos hlt]
      simp only [Tree.size, ih]
      omega
  | case4 al ar ai bl br bi hlt ih =>
      rw [merge, if_neg hlt]
      simp only [Tree.size, ih]
      omega

theorem merge_items [LinearOrder α] (a b : Tree α) :
    (merge a b).items = a.items + b.items := by
  induction a, b using merge.induct with
  | case1 b => simp [merge, Tree.items]
  | case2 l r x => simp [merge, Tree.items]
  | case3 al ar ai bl br bi hlt ih =>
      rw [merge, if_pos hlt]
      simp only [Tree.items, ih, ← Multiset.singleton_add]
      abel
  | case4 al ar ai bl br bi hlt ih =>
      rw [merge, if_neg hlt]
      simp only [Tree.items, ih, ← Multiset.singleton_add]
      abel

theorem le_of_mem_items [LinearOrder α] {l r : Tree α} {x y : α}
    (hord : HeapOrdered (Tree.node l r x)) (hy : y ∈ (Tree.node l r x).items) :
    y ≤ x := by
  simp only [HeapOrdered] at hord
  simp only [Tree.items, Multiset.mem_cons, Multiset.mem_add] at hy
  rcases hy with rfl | hy | hy
  · exact le_refl _
  · exact hord.1 y hy
  · exact hord.2.1 y hy

theorem HeapOrdered_merge [LinearOrder α] {a b : Tree α}
    (ha : HeapOrdered a) (hb : HeapOrdered b) : HeapOrdered (merge a b) := by
  induction a, b using merge.induct with
  | case1 b => simpa [merge] using hb
  | case2 l r x => simpa [merge] using ha
  | case3 al ar ai bl br bi hlt ih =>
      rw [merge, if_pos hlt]
      simp only [HeapOrdered] at hb ⊢
      refine ⟨?_, hb.1, ih ha hb.2.2.2, hb.2.2.1⟩
      intro y hy
      rw [merge_items, Multiset.mem_add] at hy
      rcases hy with hy | hy
      · exact le_trans (le_of_mem_items ha hy) (le_of_lt hlt)
      · exact hb.2.1 y hy
  | case4 al ar ai bl br bi hlt ih =>
      rw [merge, if_neg hlt]
      simp only [HeapOrdered] at ha ⊢
      refine ⟨?_, ha.1, ih hb ha.2.2.2, ha.2.2.1⟩
      intro y hy
      rw [merge_items, Multiset.mem_add] at hy
      rcases hy with hy | hy
      · exact le_trans (le_of_mem_items hb hy) (not_lt.mp hlt)
      · exact ha.2.1 y hy

theorem size_eq_zero_iff (t : Tree α) : t.size = 0 ↔ t = Tree.nil := by
  cases t <;> simp [Tree.size]

/-- `SkewHeap<T>` from src/src/lib.rs lines 44-47: `root` is the `nodes.node`
field (the optional root node) and `len` the stored item count. -/
structure SkewHeap (α : Type) where
  root : Tree α
  len : Nat
deriving DecidableEq

/-- `SkewHeap::new` (line 51). -/
def SkewHeap.new : SkewHeap α := ⟨.nil, 0⟩

/-- `SkewHeap::is_empty` (line 56): tests the root for absence. -/
def SkewHeap.is_empty (h : SkewHeap α) : Bool :=
  match h.root with
  | .nil => true
  | .node _ _ _ => false

/-- `SkewHeap::peek` (line 76): the root's item, if present. -/
def SkewHeap.peek (h : SkewHeap α) : Option α :=
  match h.root with
  | .nil => none
  | .node _ _ x => some x

/-- `SkewHeap::push_node` (lines 213-219): increment `len`, merge the node in. -/
def SkewHeap.push_node [LinearOrder α] (h : SkewHeap α) (t : Tree α) : SkewHeap α :=
  ⟨merge h.root t, h.len + 1⟩

/-- `SkewHeap::push` (line 81): push a fresh childless node holding `item`. -/
def SkewHeap.push [LinearOrder α] (h : SkewHeap α) (item : α) : SkewHeap α :=
  h.push_node (.node .nil .nil item)

/-- `SkewHeap::pop_node` (lines 221-228): detach the root, make the merge of its
children the new root, decrement `len`, and hand back the root's item (the
returned `Box<Node>` has both children taken, so only its item remains). -/
def SkewHeap.pop_node [LinearOrder α] (h : SkewHeap α) : Option α × SkewHeap α :=
  match h.root with
  | .nil => (none, h)
  | .node l r x => (some x, ⟨merge l r, h.len - 1⟩)

/-- `SkewHeap::pop` (line 122): `pop_node`, keeping only the item. -/
def SkewHeap.pop [LinearOrder α] (h : SkewHeap α) : Option α × SkewHeap α :=
  h.pop_node

/-- The `_ =>` arm shared by `push_pop` (lines 159-162): pop the root node,
exchange its item with the argument, push the node back, return the old item.
When `pop_node` yields nothing the heap is left untouched and the argument
comes straight back. -/
def SkewHeap.popSwapPush [LinearOrder α] (h : SkewHeap α) (item : α) : α × SkewHeap α :=
  match h.pop_node with
  | (some x, h') => (x, h'.push_node (.node .nil .nil item))
  | (none, _) => (item, h)

/-- `SkewHeap::push_pop` (lines 156-166): if the root is present and `item` is
greater than or equal to it, return `item` with the heap untouched; otherwise
run the pop-swap-push sequence. -/
def SkewHeap.push_pop [LinearOrder α] (h : SkewHeap α) (item : α) : α × SkewHeap α :=
  match h.root with
  | .node _ _ rootItem =>
      if rootItem ≤ item then (item, h) else h.popSwapPush item
  | .nil => h.popSwapPush item

/-- The `_ =>` arm of `replace` (lines 197-207): if `pop_node` yields nothing,
push `item` and return nothing; otherwise exchange the popped node's item with
`item`, push the node back, and return the displaced old item. -/
def SkewHeap.replaceSlow [LinearOrder α] (h : SkewHeap α) (item : α) :
    Option α × SkewHeap α :=
  match h.pop_node with
  | (none, h') => (none, h'.push item)
  | (some x, h') => (some x, h'.push_node (.node .nil .nil item))

/-- `SkewHeap::replace` (lines 194-209): if the root is present and `item` is
greater than or equal to it, overwrite the root's item in place (children kept)
and return the old item; otherwise fall back to pop-swap-push. -/
def SkewHeap.replace [LinearOrder α] (h : SkewHeap α) (item : α) :
    Option α × SkewHeap α :=
  match h.root with
  | .node l r rootItem =>
      if rootItem ≤ item then (some rootItem, ⟨.node l r item, h.len⟩)
      else h.replaceSlow item
  | .nil => h.replaceSlow item

/-- `SkewHeap::append` (lines 109-112): add `other`'s count into `len`, merge
`other`'s taken root into the root, leaving `other` empty.  Returns the pair
(updated self, emptied other). -/
def SkewHeap.append [LinearOrder α] (h other : SkewHeap α) :
    SkewHeap α × SkewHeap α :=
  (⟨merge h.root other.root, h.len + other.len⟩, SkewHeap.new)

/-- `SkewHeap::clear` (line 115): reset to the fresh empty heap. -/
def SkewHeap.clear (_ : SkewHeap α) : SkewHeap α := SkewHeap.new

/-- `Extend<T> for SkewHeap` (lines 257-282, non-specialized path): push each
item of the sequence in order. -/
def SkewHeap.extend [LinearOrder α] (h : SkewHeap α) (items : List α) : SkewHeap α :=
  items.foldl SkewHeap.push h

/-- The rotation loop inside `Nodes::next` (src/src/lib.rs lines 343-355).
The current node's fields are `(l, r, x)`.  While a left child exists, rotate:
the node keeps the left child's right subtree as its new left child, the node is
reattached as the left child's right subtree, and the walk moves to the former
left child.  At a node with no left child, return its item together with its
right subtree (which becomes the walker's new current node). -/
def nextLoop : Tree α → Tree α → α → α × Tree α
  | .nil, r, x => (x, r)
  | .node ll lr lx, r, x => nextLoop ll (.node lr r x) lx

/-- `Nodes::next` (src/src/lib.rs lines 341-357): take the current node if
present and run the rotation loop on it. -/
def Nodes.next : Tree α → Option (α × Tree α)
  | .nil => none
  | .node l r x => some (nextLoop l r x)

theorem nextLoop_size (l : Tree α) :
    ∀ r x, (nextLoop l r x).2.size = l.size + r.size := by
  induction l with
  | nil => intro r x; simp [nextLoop, Tree.size]
  | node ll lr lx ihl _ =>
      intro r x
      simp only [nextLoop, ihl, Tree.size]
      omega

theorem nextLoop_items (l : Tree α) :
    ∀ r x, (nextLoop l r x).1 ::ₘ (nextLoop l r x).2.items
      = (Tree.node l r x).items := by
  induction l with
  | nil => intro r x; simp [nextLoop, Tree.items]
  | node ll lr lx ihl _ =>
      intro r x
      rw [nextLoop, ihl]
      simp only [Tree.items, ← Multiset.singleton_add]
      abel

theorem Nodes.next_size {t rest : Tree α} {x : α}
    (h : Nodes.next t = some (x, rest)) : rest.size + 1 = t.size := by
  cases t with
  | nil => simp [Nodes.next] at h
  | node l r y =>
      simp only [Nodes.next, Option.some.injEq] at h
      have hs : rest.size = l.size + r.size := by
        have := nextLoop_size l r y
        rw [h] at this
        exact this
      simp only [Tree.size]
      omega

theorem Nodes.next_items {t rest : Tree α} {x : α}
    (h : Nodes.next t = some (x, rest)) : x ::ₘ rest.items = t.items := by
  cases t with
  | nil => simp [Nodes.next] at h
  | node l r y =>
      simp only [Nodes.next, Option.some.injEq] at h
      have hi := nextLoop_items l r y
      rw [h] at hi
      exact hi

/-- Repeatedly calling `Nodes::next` until the tree is exhausted: the item
sequence produced by a full consuming traversal / teardown (this is what both
`Drop for Nodes` (line 334) and the consuming iterator perform). -/
def drain : Tree α → List α
  | .nil => []
  | .node l r x =>
      (nextLoop l r x).1 :: drain (nextLoop l r x).2
termination_by t => t.size
decreasing_by
  simp only [Tree.size, nextLoop_size]
  omega

theorem drain_next (t : Tree α) :
    drain t = match Nodes.next t with
      | none => []
      | some (x, rest) => x :: drain rest := by
  cases t with
  | nil => simp only [drain, Nodes.next]
  | node l r x => simp only [drain, Nodes.next]

theorem drain_length (t : Tree α) : (drain t).length = t.size := by
  have key : ∀ n (t : Tree α), t.size = n → (drain t).length = t.size := by
    intro n
    induction n using Nat.strong_induction_on with
    | _ n ih =>
        intro t hs
        cases t with
        | nil => simp only [drain, List.length_nil, Tree.size]
        | node l r x =>
            have hsz := nextLoop_size l r x
            have hlt : (nextLoop l r x).2.size < n := by
              simp only [Tree.size] at hs; omega
            have hrec := ih _ hlt (nextLoop l r x).2 rfl
            simp only [drain, List.length_cons, hrec, Tree.size]
            omega
  exact key t.size t rfl

theorem drain_items (t : Tree α) : (drain t : Multiset α) = t.items := by
  have key : ∀ n (t : Tree α), t.size = n → (drain t : Multiset α) = t.items := by
    intro n
    induction n using Nat.strong_induction_on with
    | _ n ih =>
        intro t hs
        cases t with
        | nil => simp only [drain, Multiset.coe_nil, Tree.items]
        | node l r x =>
            have hlt : (nextLoop l r x).2.size < n := by
              have := nextLoop_size l r x
              simp only [Tree.size] at hs; omega
            have hrec := ih _ hlt (nextLoop l r x).2 rfl
            have hit := nextLoop_items l r x
            simp only [drain, ← Multiset.cons_coe, hrec, hit]
  exact key t.size t rfl

/-- `IntoIter<T>` (src/src/lib.rs lines 370-373): the consuming iterator's state,
a `Nodes` walker plus the remaining count. -/
structure IntoIter (α : Type) where
  nodes : Tree α
  len : Nat
deriving DecidableEq

/-- `IntoIterator for SkewHeap` (line 364). -/
def SkewHeap.into_iter (h : SkewHeap α) : IntoIter α :=
  ⟨h.root, h.len⟩

/-- `Iterator for IntoIter::next` (lines 393-398): advance the walker and
decrement the count. -/
def IntoIter.next (it : IntoIter α) : Option α × IntoIter α :=
  match Nodes.next it.nodes with
  | none => (none, it)
  | some (x, rest) => (some x, ⟨rest, it.len - 1⟩)

/-- `DoubleEndedIterator for IntoIter::next_back` (lines 405-409): delegates to
`next` unchanged. -/
def IntoIter.next_back (it : IntoIter α) : Option α × IntoIter α :=
  it.next

/-- `Iter<'a, T>` (src/src/lib.rs lines 427-430): the borrowing iterator's
state, an explicit stack of borrowed nodes plus the remaining count.  A `nil`
entry never occurs: the stack only ever receives present nodes. -/
structure Iter (α : Type) where
  nodes : List (Tree α)
  len : Nat
deriving DecidableEq

/-- `SkewHeap::iter` (lines 66-71): seed the stack with the root, if present. -/
def SkewHeap.iter (h : SkewHeap α) : Iter α :=
  match h.root with
  | .nil => ⟨[], h.len⟩
  | t => ⟨[t], h.len⟩

/-- Push a child reference if the child is present (`if let Some(ref c) = ...`
at lines 464-465). -/
def pushChild (t : Tree α) (s : List (Tree α)) : List (Tree α) :=
  match t with
  | .nil => s
  | t => t :: s

/-- `Iterator for Iter::next` (lines 461-468): pop the top node, push its left
then its right child, yield its item.  The list's head is the stack top. -/
def Iter.next (it : Iter α) : Option α × Iter α :=
  match it.nodes with
  | [] => (none, it)
  | .nil :: rest => (none, ⟨rest, it.len⟩)
  | .node l r x :: rest => (some x, ⟨pushChild r (pushChild l rest), it.len - 1⟩)

/-- `DoubleEndedIterator for Iter::next_back` (lines 475-479): delegates to
`next` unchanged. -/
def Iter.next_back (it : Iter α) : Option α × Iter α :=
  it.next

/-- The merge loop with an explicit iteration budget: `mergeF fuel a b` returns
`some` result exactly when the loop of src/src/lib.rs lines 18-40 finishes
within `fuel` iterations (each pass through `loop` consumes one unit). -/
def mergeF [LinearOrder α] : Nat → Tree α → Tree α → Option (Tree α)
  | 0, _, _ => none
  | _ + 1, .nil, b => some b
  | _ + 1, .node l r x, .nil => some (.node l r x)
  | fuel + 1, .node al ar ai, .node bl br bi =>
      if ai < bi then
        (mergeF fuel (.node al ar ai) br).map (fun t => .node t bl bi)
      else
        (mergeF fuel (.node bl br bi) ar).map (fun t => .node t al ai)

/-- One iteration of the merge loop body with both sides present
(src/src/lib.rs lines 26-36), starting from the two nodes' raw fields.
Returns, in order: the item of the node settled in place this iteration, the
subtree left as that node's final right child, the tree installed into its
left-child slot (the slot the next iteration descends into), and the tree that
becomes `b` for the next iteration. -/
def mergeLoopIter [LinearOrder α] (al ar : Tree α) (ai : α) (bl br : Tree α)
    (bi : α) : α × Tree α × Tree α × Tree α :=
  if ai < bi then
    (bi, bl, Tree.node al ar ai, br)
  else
    (ai, al, Tree.node bl br bi, ar)

/-- Modelled from the spec: the external reference array-backed max-heap oracle
of §8 (the differential test's `BinaryHeap`, whose code is not part of this
repository).  Its observable state is its multiset of items, represented here
as a descending-sorted list; popping yields items in descending order. -/
abbrev Ref (α : Type) : Type := List α

/-- Modelled from the spec: the oracle starts empty. -/
def Ref.new : Ref α := ([] : List α)

/-- Modelled from the spec: oracle insertion keeps the list descending-sorted. -/
def Ref.push [LinearOrder α] (m : Ref α) (x : α) : Ref α :=
  List.orderedInsert (· ≥ ·) x m

/-- Modelled from the spec: oracle pop removes and returns the greatest item. -/
def Ref.pop (m : Ref α) : Option α × Ref α :=
  match m with
  | ([] : List α) => (none, m)
  | x :: xs => (some x, xs)

/-- Modelled from the spec: oracle peek is the greatest item, if any. -/
def Ref.peek (m : Ref α) : Option α :=
  List.head? m

/-- Modelled from the spec: the oracle's item count. -/
def Ref.length (m : Ref α) : Nat :=
  List.length m

/-- The operation alphabet of the differential test
(src/tests/quickcheck.rs lines 8-15). -/
inductive Op (α : Type) where
  | extend (ts : List α)
  | pop
  | push (t : α)
  | push_pop (t : α)
  | replace (t : α)

/-- `Op::exec` (src/tests/quickcheck.rs lines 40-48): apply the operation to the
skew heap and report the observable result. -/
def Op.exec [LinearOrder α] : Op α → SkewHeap α → Option α × SkewHeap α
  | .extend ts, h => (none, h.extend ts)
  | .pop, h => h.pop
  | .push t, h => (none, h.push t)
  | .push_pop t, h => (some (h.push_pop t).1, (h.push_pop t).2)
  | .replace t, h => h.replace t

/-- `Op::exec_binary` (src/tests/quickcheck.rs lines 50-58): apply the same
operation to the reference oracle. -/
def Op.execRef [LinearOrder α] : Op α → Ref α → Option α × Ref α
  | .extend ts, m => (none, ts.foldl Ref.push m)
  | .pop, m => Ref.pop m
  | .push t, m => (none, Ref.push m t)
  | .push_pop t, m => Ref.pop (Ref.push m t)
  | .replace t, m => ((Ref.pop m).1, Ref.push (Ref.pop m).2 t)

/-- Repeatedly popping the heap until it is empty (the final drain loop of
`agrees_with_binary_heap`, src/tests/quickcheck.rs lines 92-98), collecting the
extracted items in order. -/
def popAll [LinearOrder α] : Tree α → List α
  | .nil => []
  | .node l r x => x :: popAll (merge l r)
termination_by t => t.size
decreasing_by
  simp only [merge_size, Tree.size]
  omega

/-- Lockstep agreement of the skew heap and the reference oracle over an
operation sequence, as `agrees_with_binary_heap` checks it: after every single
operation the returned value, the peek, and the length coincide, and once the
sequence is exhausted draining both yields the same descending sequence. -/
def agreeRun [LinearOrder α] : List (Op α) → SkewHeap α → Ref α → Prop
  | [], h, m => popAll h.root = (m : List α)
  | op :: ops, h, m =>
      (op.exec h).1 = (op.execRef m).1 ∧
      (op.exec h).2.peek = Ref.peek (op.execRef m).2 ∧
      (op.exec h).2.len = Ref.length (op.execRef m).2 ∧
      agreeRun ops (op.exec h).2 (op.execRef m).2

/-- The structural part of the container invariant: the stored count matches the
number of reachable nodes and the tree is heap-ordered. -/
def WF [LinearOrder α] (h : SkewHeap α) : Prop :=
  h.len = h.root.size ∧ HeapOrdered h.root

/-- The coupling between a skew heap and the oracle: the heap is well-formed,
the oracle's list is descending-sorted, and both hold the same multiset. -/
def Couples [LinearOrder α] (h : SkewHeap α) (m : Ref α) : Prop :=
  WF h ∧ List.Sorted (· ≥ ·) (m : List α) ∧ h.root.items = ((m : List α) : Multiset α)

theorem items_card (t : Tree α) : Multiset.card t.items = t.size := by
  induction t with
  | nil => simp [Tree.items, Tree.size]
  | node l r x ihl ihr => simp [Tree.items, Tree.size, ihl, ihr]

theorem Ref.push_coe [LinearOrder α] (m : Ref α) (x : α) :
    ((Ref.push m x : List α) : Multiset α) = x ::ₘ (m : Multiset α) := by
  exact Quot.sound (List.perm_orderedInsert _ x m)

theorem Ref.push_sorted [LinearOrder α] {m : Ref α}
    (hs : List.Sorted (· ≥ ·) (m : List α)) (x : α) :
    List.Sorted (· ≥ ·) (Ref.push m x : List α) :=
  List.Sorted.orderedInsert x m hs

theorem Ref.push_nil [LinearOrder α] (x : α) :
    Ref.push (Ref.new : Ref α) x = [x] := rfl

theorem Ref.push_cons_ge [LinearOrder α] {y x : α} (ys : List α) (hxy : y ≤ x) :
    Ref.push (y :: ys : Ref α) x = x :: y :: ys := by
  simp [Ref.push, List.orderedInsert, hxy]

theorem Ref.push_cons_lt [LinearOrder α] {y x : α} (ys : List α) (hxy : ¬ y ≤ x) :
    Ref.push (y :: ys : Ref α) x = y :: Ref.push (ys : Ref α) x := by
  simp [Ref.push, List.orderedInsert, hxy]

theorem root_head [LinearOrder α] {l r : Tree α} {x : α} {m : List α}
    (hord : HeapOrdered (Tree.node l r x))
    (hit : (Tree.node l r x).items = (m : Multiset α))
    (hs : List.Sorted (· ≥ ·) m) : ∃ ys, m = x :: ys := by
  cases m with
  | nil =>
      exfalso
      have : x ∈ (Tree.node l r x).items := by simp [Tree.items]
      rw [hit] at this
      simp at this
  | cons y ys =>
      refine ⟨ys, ?_⟩
      have hyx : y ≤ x := by
        apply le_of_mem_items hord
        rw [hit]
        simp
      have hxy : x ≤ y := by
        have hxm : x ∈ y :: ys := by
          have : x ∈ (Tree.node l r x).items := by simp [Tree.items]
          rw [hit] at this
          simpa using this
        rcases List.mem_cons.mp hxm with rfl | hx
        · exact le_refl _
        · exact List.rel_of_sorted_cons hs x hx
      rw [le_antisymm hxy hyx]

theorem couples_peek [LinearOrder α] {h : SkewHeap α} {m : Ref α}
    (hC : Couples h m) : h.peek = Ref.peek m := by
  obtain ⟨⟨hlen, hord⟩, hs, hit⟩ := hC
  cases hroot : h.root with
  | nil =>
      rw [hroot] at hit
      have : (m : List α) = [] := by
        have := hit.symm
        simpa [Tree.items, Multiset.coe_eq_zero] using this
      simp [SkewHeap.peek, Ref.peek, hroot, this]
  | node l r x =>
      rw [hroot] at hit hord
      obtain ⟨ys, rfl⟩ := root_head hord hit hs
      simp [SkewHeap.peek, Ref.peek, hroot]

theorem couples_len [LinearOrder α] {h : SkewHeap α} {m : Ref α}
    (hC : Couples h m) : h.len = Ref.length m := by
  obtain ⟨⟨hlen, _⟩, _, hit⟩ := hC
  have := congrArg Multiset.card hit
  rw [items_card, Multiset.coe_card] at this
  rw [hlen, this]
  rfl

theorem couples_push [LinearOrder α] {h : SkewHeap α} {m : Ref α}
    (hC : Couples h m) (x : α) : Couples (h.push x) (Ref.push m x) := by
  obtain ⟨⟨hlen, hord⟩, hs, hit⟩ := hC
  refine ⟨⟨?_, ?_⟩, Ref.push_sorted hs x, ?_⟩
  · simp [SkewHeap.push, SkewHeap.push_node, merge_size, Tree.size, hlen]
  · exact HeapOrdered_merge hord (by simp [HeapOrdered, Tree.items])
  · simp only [SkewHeap.push, SkewHeap.push_node, merge_items, Tree.items, hit,
      Ref.push_coe, ← Multiset.singleton_add, add_zero, zero_add]
    abel

theorem couples_pop [LinearOrder α] {h : SkewHeap α} {m : Ref α}
    (hC : Couples h m) :
    (h.pop).1 = (Ref.pop m).1 ∧ Couples (h.pop).2 (Ref.pop m).2 := by
  obtain ⟨⟨hlen, hord⟩, hs, hit⟩ := hC
  cases hroot : h.root with
  | nil =>
      rw [hroot] at hit
      have hm : (m : List α) = [] := by
        simpa [Tree.items, eq_comm, Multiset.coe_eq_zero] using hit
      have hpop : h.pop = (none, h) := by
        simp [SkewHeap.pop, SkewHeap.pop_node, hroot]
      subst hm
      rw [hpop]
      exact ⟨rfl, ⟨hlen, hord⟩, by simp [Ref.pop], by simp [hroot, Tree.items, Ref.pop]⟩
  | node l r x =>
      rw [hroot] at hit
      have hordn : HeapOrdered (Tree.node l r x) := by rw [← hroot]; exact hord
      obtain ⟨ys, hm⟩ := root_head hordn hit hs
      have hpop : h.pop = (some x, ⟨merge l r, h.len - 1⟩) := by
        simp [SkewHeap.pop, SkewHeap.pop_node, hroot]
      simp only [HeapOrdered] at hordn
      have htail : (l.items + r.items) = ((ys : List α) : Multiset α) := by
        rw [hm, ← Multiset.cons_coe] at hit
        simp only [Tree.items] at hit
        exact (Multiset.cons_inj_right x).mp hit
      rw [hpop, hm]
      refine ⟨rfl, ⟨?_, HeapOrdered_merge hordn.2.2.1 hordn.2.2.2⟩, ?_, ?_⟩
      · have : h.len = l.size + r.size + 1 := by
          rw [hlen, hroot]; simp [Tree.size]
        simp [merge_size, this]
      · rw [hm] at hs
        exact List.Sorted.of_cons hs
      · simp [merge_items, htail, Ref.pop]

theorem couples_push_pop [LinearOrder α] {h : SkewHeap α} {m : Ref α}
    (hC : Couples h m) (v : α) :
    some (h.push_pop v).1 = (Ref.pop (Ref.push m v)).1 ∧
      Couples (h.push_pop v).2 (Ref.pop (Ref.push m v)).2 := by
  obtain ⟨⟨hlen, hord⟩, hs, hit⟩ := hC
  cases hroot : h.root with
  | nil =>
      rw [hroot] at hit
      have hm : (m : List α) = [] := by
        simpa [Tree.items, eq_comm, Multiset.coe_eq_zero] using hit
      have hpp : h.push_pop v = (v, h) := by
        simp [SkewHeap.push_pop, SkewHeap.popSwapPush, SkewHeap.pop_node, hroot]
      subst hm
      rw [hpp]
      exact ⟨rfl, ⟨hlen, hord⟩, by simp [Ref.push, Ref.pop],
        by simp [hroot, Tree.items, Ref.push, Ref.pop]⟩
  | node l r rx =>
      rw [hroot] at hit
      have hordn : HeapOrdered (Tree.node l r rx) := by rw [← hroot]; exact hord
      obtain ⟨ys, hm⟩ := root_head hordn hit hs
      by_cases hle : rx ≤ v
      · have hpp : h.push_pop v = (v, h) := by
          simp [SkewHeap.push_pop, hroot, hle]
        have hrp : Ref.push m v = v :: m := by
          rw [hm]; exact Ref.push_cons_ge ys hle
        rw [hpp, hrp]
        exact ⟨rfl, ⟨hlen, hord⟩, hs, by rw [hroot]; exact hit⟩
      · have hpp : h.push_pop v =
            (rx, ⟨merge (merge l r) (.node .nil .nil v), h.len - 1 + 1⟩) := by
          simp [SkewHeap.push_pop, SkewHeap.popSwapPush, SkewHeap.pop_node,
            SkewHeap.push_node, hroot, hle]
        have hrp : Ref.push m v = rx :: Ref.push (ys : Ref α) v := by
          rw [hm]; exact Ref.push_cons_lt ys hle
        simp only [HeapOrdered] at hordn
        have htail : (l.items + r.items) = ((ys : List α) : Multiset α) := by
          rw [hm, ← Multiset.cons_coe] at hit
          simp only [Tree.items] at hit
          exact (Multiset.cons_inj_right rx).mp hit
        have hsys : List.Sorted (· ≥ ·) (ys : List α) := by
          rw [hm] at hs; exact List.Sorted.of_cons hs
        rw [hpp, hrp]
        refine ⟨rfl, ⟨?_, ?_⟩, Ref.push_sorted hsys v, ?_⟩
        · have : h.len = l.size + r.size + 1 := by
            rw [hlen, hroot]; simp [Tree.size]
          simp [merge_size, Tree.size, this]
        · exact HeapOrdered_merge (HeapOrdered_merge hordn.2.2.1 hordn.2.2.2)
            (by simp [HeapOrdered, Tree.items])
        · simp only [merge_items, Tree.items, htail, Ref.push_coe, Ref.pop,
            ← Multiset.singleton_add, add_zero, zero_add]
          abel

theorem couples_replace [LinearOrder α] {h : SkewHeap α} {m : Ref α}
    (hC : Couples h m) (v : α) :
    (h.replace v).1 = (Ref.pop m).1 ∧
      Couples (h.replace v).2 (Ref.push (Ref.pop m).2 v) := by
  obtain ⟨⟨hlen, hord⟩, hs, hit⟩ := hC
  cases hroot : h.root with
  | nil =>
      rw [hroot] at hit
      have hm : (m : List α) = [] := by
        simpa [Tree.items, eq_comm, Multiset.coe_eq_zero] using hit
      have hrp : h.replace v = (none, h.push v) := by
        simp [SkewHeap.replace, SkewHeap.replaceSlow, SkewHeap.pop_node, hroot]
      rw [hrp, hm]
      refine ⟨rfl, ?_⟩
      have := couples_push (m := []) ⟨⟨hlen, hord⟩, by simp,
        by simp [hroot, Tree.items]⟩ v
      simpa [Ref.pop] using this
  | node l r rx =>
      rw [hroot] at hit
      have hordn : HeapOrdered (Tree.node l r rx) := by rw [← hroot]; exact hord
      obtain ⟨ys, hm⟩ := root_head hordn hit hs
      simp only [HeapOrdered] at hordn
      have htail : (l.items + r.items) = ((ys : List α) : Multiset α) := by
        rw [hm, ← Multiset.cons_coe] at hit
        simp only [Tree.items] at hit
        exact (Multiset.cons_inj_right rx).mp hit
      have hsys : List.Sorted (· ≥ ·) (ys : List α) := by
        rw [hm] at hs; exact List.Sorted.of_cons hs
      have hpopm : Ref.pop m = (some rx, (ys : Ref α)) := by
        rw [hm]; rfl
      by_cases hle : rx ≤ v
      · have hrp : h.replace v = (some rx, ⟨Tree.node l r v, h.len⟩) := by
          simp [SkewHeap.replace, hroot, hle]
        rw [hrp, hpopm]
        refine ⟨rfl, ⟨?_, ?_⟩, Ref.push_sorted hsys v, ?_⟩
        · rw [hlen, hroot]; simp [Tree.size]
        · exact ⟨fun y hy => le_trans (hordn.1 y hy) hle,
            fun y hy => le_trans (hordn.2.1 y hy) hle, hordn.2.2.1, hordn.2.2.2⟩
        · simp only [Tree.items, htail, Ref.push_coe]
      · have hrp : h.replace v =
            (some rx, ⟨merge (merge l r) (.node .nil .nil v), h.len - 1 + 1⟩) := by
          simp [SkewHeap.replace, SkewHeap.replaceSlow, SkewHeap.pop_node,
            SkewHeap.push_node, hroot, hle]
        rw [hrp, hpopm]
        refine ⟨rfl, ⟨?_, ?_⟩, Ref.push_sorted hsys v, ?_⟩
        · have : h.len = l.size + r.size + 1 := by
            rw [hlen, hroot]; simp [Tree.size]
          simp [merge_size, Tree.size, this]
        · exact HeapOrdered_merge (HeapOrdered_merge hordn.2.2.1 hordn.2.2.2)
            (by simp [HeapOrdered, Tree.items])
        · simp only [merge_items, Tree.items, htail, Ref.push_coe, Ref.pop,
            ← Multiset.singleton_add, add_zero, zero_add]
          abel

theorem couples_extend [LinearOrder α] {h : SkewHeap α} {m : Ref α}
    (hC : Couples h m) (ts : List α) :
    Couples (h.extend ts) (ts.foldl Ref.push m) := by
  induction ts generalizing h m with
  | nil => exact hC
  | cons t ts ih =>
      exact ih (couples_push hC t)

theorem popAll_eq [LinearOrder α] {t : Tree α} {m : List α}
    (hord : HeapOrdered t) (hit : t.items = (m : Multiset α))
    (hs : List.Sorted (· ≥ ·) m) : popAll t = m := by
  have key : ∀ n (t : Tree α) (m : List α), t.size = n → HeapOrdered t →
      t.items = (m : Multiset α) → List.Sorted (· ≥ ·) m → popAll t = m := by
    intro n
    induction n using Nat.strong_induction_on with
    | _ n ih =>
        intro t m hsz hord hit hs
        cases t with
        | nil =>
            have : m = [] := by
              simpa [Tree.items, eq_comm, Multiset.coe_eq_zero] using hit
            rw [popAll, this]
        | node l r x =>
            obtain ⟨ys, rfl⟩ := root_head hord hit hs
            simp only [HeapOrdered] at hord
            have htail : (l.items + r.items) = ((ys : List α) : Multiset α) := by
              rw [← Multiset.cons_coe] at hit
              simp only [Tree.items] at hit
              exact (Multiset.cons_inj_right x).mp hit
            rw [popAll]
            have hlt : (merge l r).size < n := by
              rw [merge_size]
              simp only [Tree.size] at hsz
              omega
            rw [ih _ hlt (merge l r) ys rfl
              (HeapOrdered_merge hord.2.2.1 hord.2.2.2)
              (by rw [merge_items, htail]) (List.Sorted.of_cons hs)]
  exact key t.size t m rfl hord hit hs

theorem couples_step [LinearOrder α] {h : SkewHeap α} {m : Ref α}
    (hC : Couples h m) (op : Op α) :
    (op.exec h).1 = (op.execRef m).1 ∧ Couples (op.exec h).2 (op.execRef m).2 := by
  cases op with
  | extend ts => exact ⟨rfl, couples_extend hC ts⟩
  | pop => exact couples_pop hC
  | push t => exact ⟨rfl, couples_push hC t⟩
  | push_pop t => exact couples_push_pop hC t
  | replace t => exact couples_replace hC t

theorem couples_agreeRun [LinearOrder α] {h : SkewHeap α} {m : Ref α}
    (hC : Couples h m) (ops : List (Op α)) : agreeRun ops h m := by
  induction ops generalizing h m with
  | nil => exact popAll_eq hC.1.2 hC.2.2 hC.2.1
  | cons op ops ih =>
      obtain ⟨hres, hC2⟩ := couples_step hC op
      exact ⟨hres, couples_peek hC2, couples_len hC2, ih hC2⟩

theorem WF_new [LinearOrder α] : WF (SkewHeap.new : SkewHeap α) :=
  ⟨rfl, trivial⟩

theorem HeapOrdered_singleton [LinearOrder α] (x : α) :
    HeapOrdered (Tree.node .nil .nil x) := by
  simp [HeapOrdered, Tree.items]

theorem WF_push [LinearOrder α] {h : SkewHeap α} (hW : WF h) (x : α) :
    WF (h.push x) := by
  refine ⟨?_, HeapOrdered_merge hW.2 (HeapOrdered_singleton x)⟩
  simp [SkewHeap.push, SkewHeap.push_node, merge_size, Tree.size, hW.1]

theorem WF_pop [LinearOrder α] {h : SkewHeap α} (hW : WF h) : WF (h.pop).2 := by
  cases hroot : h.root with
  | nil =>
      have : h.pop = (none, h) := by simp [SkewHeap.pop, SkewHeap.pop_node, hroot]
      rw [this]
      exact hW
  | node l r x =>
      have : h.pop = (some x, ⟨merge l r, h.len - 1⟩) := by
        simp [SkewHeap.pop, SkewHeap.pop_node, hroot]
      rw [this]
      have hord : HeapOrdered (Tree.node l r x) := by rw [← hroot]; exact hW.2
      simp only [HeapOrdered] at hord
      refine ⟨?_, HeapOrdered_merge hord.2.2.1 hord.2.2.2⟩
      have := hW.1
      rw [hroot] at this
      simp only [Tree.size] at this
      simp [merge_size, this]

theorem WF_push_pop [LinearOrder α] {h : SkewHeap α} (hW : WF h) (x : α) :
    WF (h.push_pop x).2 := by
  cases hroot : h.root with
  | nil =>
      have : h.push_pop x = (x, h) := by
        simp [SkewHeap.push_pop, SkewHeap.popSwapPush, SkewHeap.pop_node, hroot]
      rw [this]
      exact hW
  | node l r rx =>
      by_cases hle : rx ≤ x
      · have : h.push_pop x = (x, h) := by simp [SkewHeap.push_pop, hroot, hle]
        rw [this]
        exact hW
      · have : h.push_pop x =
            (rx, ⟨merge (merge l r) (.node .nil .nil x), h.len - 1 + 1⟩) := by
          simp [SkewHeap.push_pop, SkewHeap.popSwapPush, SkewHeap.pop_node,
            SkewHeap.push_node, hroot, hle]
        rw [this]
        have hord : HeapOrdered (Tree.node l r rx) := by rw [← hroot]; exact hW.2
        simp only [HeapOrdered] at hord
        refine ⟨?_, HeapOrdered_merge
          (HeapOrdered_merge hord.2.2.1 hord.2.2.2) (HeapOrdered_singleton x)⟩
        have := hW.1
        rw [hroot] at this
        simp only [Tree.size] at this
        simp [merge_size, Tree.size, this]

theorem WF_replace [LinearOrder α] {h : SkewHeap α} (hW : WF h) (x : α) :
    WF (h.replace x).2 := by
  cases hroot : h.root with
  | nil =>
      have : h.replace x = (none, h.push x) := by
        simp [SkewHeap.replace, SkewHeap.replaceSlow, SkewHeap.pop_node, hroot]
      rw [this]
      exact WF_push hW x
  | node l r rx =>
      by_cases hle : rx ≤ x
      · have : h.replace x = (some rx, ⟨Tree.node l r x, h.len⟩) := by
          simp [SkewHeap.replace, hroot, hle]
        rw [this]
        have hord : HeapOrdered (Tree.node l r rx) := by rw [← hroot]; exact hW.2
        simp only [HeapOrdered] at hord
        refine ⟨?_, ⟨fun y hy => le_trans (hord.1 y hy) hle,
          fun y hy => le_trans (hord.2.1 y hy) hle, hord.2.2.1, hord.2.2.2⟩⟩
        have := hW.1
        rw [hroot] at this
        simpa [Tree.size] using this
      · have : h.replace x =
            (some rx, ⟨merge (merge l r) (.node .nil .nil x), h.len - 1 + 1⟩) := by
          simp [SkewHeap.replace, SkewHeap.replaceSlow, SkewHeap.pop_node,
            SkewHeap.push_node, hroot, hle]
        rw [this]
        have hord : HeapOrdered (Tree.node l r rx) := by rw [← hroot]; exact hW.2
        simp only [HeapOrdered] at hord
        refine ⟨?_, HeapOrdered_merge
          (HeapOrdered_merge hord.2.2.1 hord.2.2.2) (HeapOrdered_singleton x)⟩
        have := hW.1
        rw [hroot] at this
        simp only [Tree.size] at this
        simp [merge_size, Tree.size, this]

theorem WF_append [LinearOrder α] {h h' : SkewHeap α} (hW : WF h) (hW' : WF h') :
    WF (h.append h').1 := by
  refine ⟨?_, HeapOrdered_merge hW.2 hW'.2⟩
  simp [SkewHeap.append, merge_size, hW.1, hW'.1]

theorem WF_clear [LinearOrder α] (h : SkewHeap α) : WF (h.clear) :=
  ⟨rfl, trivial⟩

theorem WF_extend [LinearOrder α] {h : SkewHeap α} (hW : WF h) (ts : List α) :
    WF (h.extend ts) := by
  induction ts generalizing h with
  | nil => exact hW
  | cons t ts ih => exact ih (WF_push hW t)

/-- The heaps reachable from the empty heap by the public mutating operations
(`push`, `pop`, `push_pop`, `replace`, `append`, `clear`, `extend`). -/
inductive Reachable [LinearOrder α] : SkewHeap α → Prop where
  | new : Reachable SkewHeap.new
  | push (h : SkewHeap α) (x : α) : Reachable h → Reachable (h.push x)
  | pop (h : SkewHeap α) : Reachable h → Reachable (h.pop).2
  | push_pop (h : SkewHeap α) (x : α) : Reachable h → Reachable (h.push_pop x).2
  | replace (h : SkewHeap α) (x : α) : Reachable h → Reachable (h.replace x).2
  | append (h h' : SkewHeap α) :
      Reachable h → Reachable h' → Reachable (h.append h').1
  | appendOther (h h' : SkewHeap α) :
      Reachable h → Reachable h' → Reachable (h.append h').2
  | clear (h : SkewHeap α) : Reachable h → Reachable (h.clear)
  | extend (h : SkewHeap α) (ts : List α) : Reachable h → Reachable (h.extend ts)

theorem reachable_WF [LinearOrder α] {h : SkewHeap α} (hr : Reachable h) :
    WF h := by
  induction hr with
  | new => exact WF_new
  | push h x _ ih => exact WF_push ih x
  | pop h _ ih => exact WF_pop ih
  | push_pop h x _ ih => exact WF_push_pop ih x
  | replace h x _ ih => exact WF_replace ih x
  | append h h' _ _ ih ih' => exact WF_append ih ih'
  | appendOther h h' _ _ _ _ => exact WF_new
  | clear h _ _ => exact WF_clear h
  | extend h ts _ ih => exact WF_extend ih ts

theorem mergeF_sufficient [LinearOrder α] :
    ∀ (fuel : Nat) (a b : Tree α), a.size + b.size < fuel →
      mergeF fuel a b = some (merge a b) := by
  intro fuel
  induction fuel with
  | zero => intro a b h; omega
  | succ fuel ih =>
      intro a b hlt
      cases a with
      | nil => simp [mergeF, merge]
      | node al ar ai =>
          cases b with
          | nil => simp [mergeF, merge]
          | node bl br bi =>
              by_cases hcmp : ai < bi
              · rw [merge, if_pos hcmp]
                simp only [mergeF, if_pos hcmp]
                rw [ih (.node al ar ai) br (by simp only [Tree.size] at hlt ⊢; omega)]
                rfl
              · rw [merge, if_neg hcmp]
                simp only [mergeF, if_neg hcmp]
                rw [ih (.node bl br bi) ar (by simp only [Tree.size] at hlt ⊢; omega)]
                rfl

/-- Claim C1: for every finite sequence of operations drawn from push, pop,
push_pop, replace and bulk-insert/extend, applied in lockstep to the skew heap
and to the reference max-heap oracle starting from empty, both structures
produce identical observable results at every step (same returned value, same
peek, same length), and after fully draining both via repeated pop they yield
the same descending sequence of values. -/
theorem skew_agrees_with_reference [LinearOrder α] (ops : List (Op α)) :
    agreeRun ops SkewHeap.new Ref.new :=
  couples_agreeRun
    ⟨WF_new, List.sorted_nil, by simp [SkewHeap.new, Tree.items, Ref.new]⟩ ops

/-- Claim C2: for every two possibly absent heap-ordered trees, `merge`
produces one heap-ordered tree whose multiset of items is exactly the union of
the two input multisets. -/
theorem merge_heap_order_and_union [LinearOrder α] (a b : Tree α) :
    (HeapOrdered a → HeapOrdered b → HeapOrdered (merge a b)) ∧
    (merge a b).items = a.items + b.items :=
  ⟨fun ha hb => HeapOrdered_merge ha hb, merge_items a b⟩

theorem merge_heap_order_and_union_witness :
    HeapOrdered (merge (Tree.node .nil .nil (2 : Int))
        (Tree.node (Tree.node .nil .nil 1) .nil 3)) ∧
    (merge (Tree.node .nil .nil (2 : Int))
        (Tree.node (Tree.node .nil .nil 1) .nil 3)).items
      = (Tree.node .nil .nil (2 : Int)).items
        + (Tree.node (Tree.node .nil .nil 1) .nil 3).items :=
  ⟨(merge_heap_order_and_union _ _).1 (by decide) (by decide),
   (merge_heap_order_and_union _ _).2⟩

/-- Claim C3: every heap reachable from the empty heap by public operations
satisfies the container invariant: `len` equals the number of nodes reachable
from `root`; `len` is zero exactly when `root` is absent; the tree is
heap-ordered (every node's item bounds both subtrees); and the root's item,
when present, is the maximum item of the whole structure. -/
theorem reachable_invariant [LinearOrder α] {h : SkewHeap α}
    (hr : Reachable h) :
    h.len = h.root.size ∧ (h.len = 0 ↔ h.root = Tree.nil) ∧
    HeapOrdered h.root ∧
    (∀ x, h.peek = some x → ∀ y ∈ h.root.items, y ≤ x) := by
  obtain ⟨hlen, hord⟩ := reachable_WF hr
  refine ⟨hlen, by rw [hlen]; exact size_eq_zero_iff _, hord, ?_⟩
  intro x hx y hy
  cases hroot : h.root with
  | nil =>
      rw [hroot] at hy
      simp [Tree.items] at hy
  | node l r z =>
      have hxz : z = x := by
        simp only [SkewHeap.peek, hroot] at hx
        exact Option.some.inj hx
      rw [hroot] at hy
      have hordn : HeapOrdered (Tree.node l r z) := by rw [← hroot]; exact hord
      exact hxz ▸ le_of_mem_items hordn hy

theorem reachable_invariant_witness :
    (SkewHeap.new.push (3 : Int)).len = (SkewHeap.new.push (3 : Int)).root.size ∧
    ((SkewHeap.new.push (3 : Int)).len = 0 ↔
      (SkewHeap.new.push (3 : Int)).root = Tree.nil) ∧
    HeapOrdered (SkewHeap.new.push (3 : Int)).root ∧
    (∀ x, (SkewHeap.new.push (3 : Int)).peek = some x →
      ∀ y ∈ (SkewHeap.new.push (3 : Int)).root.items, y ≤ x) :=
  reachable_invariant (Reachable.push _ 3 Reachable.new)

/-- Claim C4: `pop` returns nothing and leaves the heap unchanged when the root
is absent; otherwise it returns the extracted root item (the heap's greatest
item), the new root is the merge of the old root's two children, and the count
decreases by one. -/
theorem pop_spec [LinearOrder α] (h : SkewHeap α) :
    (h.root = Tree.nil → h.pop = (none, h)) ∧
    (∀ l r x, h.root = Tree.node l r x →
      h.pop = (some x, ⟨merge l r, h.len - 1⟩) ∧
      (HeapOrdered h.root → ∀ y ∈ h.root.items, y ≤ x) ∧
      (h.len = h.root.size → (h.pop).2.len + 1 = h.len)) := by
  constructor
  · intro hroot
    simp [SkewHeap.pop, SkewHeap.pop_node, hroot]
  · intro l r x hroot
    refine ⟨by simp [SkewHeap.pop, SkewHeap.pop_node, hroot], ?_, ?_⟩
    · intro hord y hy
      rw [hroot] at hord hy
      exact le_of_mem_items hord hy
    · intro hlen
      rw [hroot] at hlen
      simp only [Tree.size] at hlen
      simp [SkewHeap.pop, SkewHeap.pop_node, hroot]
      omega

theorem pop_spec_witness :
    ((⟨Tree.nil, 0⟩ : SkewHeap Int).pop = (none, ⟨Tree.nil, 0⟩)) ∧
    (⟨Tree.node .nil .nil 5, 1⟩ : SkewHeap Int).pop
        = (some 5, ⟨merge Tree.nil Tree.nil, 1 - 1⟩) ∧
    (∀ y ∈ (⟨Tree.node .nil .nil 5, 1⟩ : SkewHeap Int).root.items, y ≤ 5) ∧
    ((⟨Tree.node .nil .nil 5, 1⟩ : SkewHeap Int).pop).2.len + 1 = 1 := by
  obtain ⟨h1, h2, h3⟩ :=
    (pop_spec (⟨Tree.node .nil .nil 5, 1⟩ : SkewHeap Int)).2 .nil .nil 5 rfl
  exact ⟨(pop_spec _).1 rfl, h1, h2 (by decide), h3 (by decide)⟩

/-- Claim C5: `push_pop x` on an empty heap, or on a non-empty heap whose
maximum is at most `x`, returns `x` and leaves the heap unchanged; otherwise it
returns the prior maximum and the heap's multiset afterwards equals the prior
multiset with that maximum replaced by `x`; in all branches the count is
unchanged. -/
theorem push_pop_spec [LinearOrder α] (h : SkewHeap α) (x : α)
    (hlen : h.len = h.root.size) (hord : HeapOrdered h.root) :
    (h.root = Tree.nil → h.push_pop x = (x, h)) ∧
    (∀ l r rx, h.root = Tree.node l r rx → rx ≤ x → h.push_pop x = (x, h)) ∧
    (∀ l r rx, h.root = Tree.node l r rx → x < rx →
      (h.push_pop x).1 = rx ∧ (∀ y ∈ h.root.items, y ≤ rx) ∧
      (h.push_pop x).2.root.items = x ::ₘ (h.root.items.erase rx)) ∧
    (h.push_pop x).2.len = h.len := by
  refine ⟨?_, ?_, ?_, ?_⟩
  · intro hroot
    simp [SkewHeap.push_pop, SkewHeap.popSwapPush, SkewHeap.pop_node, hroot]
  · intro l r rx hroot hle
    simp [SkewHeap.push_pop, hroot, hle]
  · intro l r rx hroot hlt
    have hle : ¬ rx ≤ x := not_le.mpr hlt
    have hpp : h.push_pop x =
        (rx, ⟨merge (merge l r) (.node .nil .nil x), h.len - 1 + 1⟩) := by
      simp [SkewHeap.push_pop, SkewHeap.popSwapPush, SkewHeap.pop_node,
        SkewHeap.push_node, hroot, hle]
    refine ⟨by rw [hpp], ?_, ?_⟩
    · intro y hy
      rw [hroot] at hy
      exact le_of_mem_items (hroot ▸ hord) hy
    · rw [hpp, hroot]
      simp only [merge_items, Tree.items, Multiset.erase_cons_head]
      simp only [← Multiset.singleton_add, add_zero, zero_add]
      abel
  · cases hroot : h.root with
    | nil =>
        simp [SkewHeap.push_pop, SkewHeap.popSwapPush, SkewHeap.pop_node, hroot]
    | node l r rx =>
        by_cases hle : rx ≤ x
        · simp [SkewHeap.push_pop, hroot, hle]
        · have : h.len = l.size + r.size + 1 := by
            rw [hlen, hroot]; simp [Tree.size]
          simp [SkewHeap.push_pop, SkewHeap.popSwapPush, SkewHeap.pop_node,
            SkewHeap.push_node, hroot, hle]
          omega

theorem push_pop_spec_witness :
    ((⟨Tree.node .nil .nil 5, 1⟩ : SkewHeap Int).push_pop 3).1 = 5 ∧
    (∀ y ∈ (⟨Tree.node .nil .nil 5, 1⟩ : SkewHeap Int).root.items, y ≤ 5) ∧
    ((⟨Tree.node .nil .nil 5, 1⟩ : SkewHeap Int).push_pop 3).2.root.items
      = 3 ::ₘ ((⟨Tree.node .nil .nil 5, 1⟩ : SkewHeap Int).root.items.erase 5) ∧
    ((⟨Tree.node .nil .nil 5, 1⟩ : SkewHeap Int).push_pop 3).2.len = 1 := by
  obtain ⟨-, -, hslow, hcnt⟩ :=
    push_pop_spec (⟨Tree.node .nil .nil 5, 1⟩ : SkewHeap Int) 3
      (by decide) (by decide)
  obtain ⟨h1, h2, h3⟩ := hslow .nil .nil 5 rfl (by decide)
  exact ⟨h1, h2, h3, hcnt⟩

/-- Claim C6: `replace x` on an empty heap inserts `x` and returns nothing
(count grows by one); on a non-empty heap whose maximum is at most `x` it swaps
the root's item in place and returns the old maximum; otherwise it extracts the
root, exchanges the item, reinserts, and returns the old maximum.  In every
branch `x` is present afterwards, and the count grows only in the empty
branch. -/
theorem replace_spec [LinearOrder α] (h : SkewHeap α) (x : α)
    (hlen : h.len = h.root.size) (hord : HeapOrdered h.root) :
    (h.root = Tree.nil →
      h.replace x = (none, h.push x) ∧ (h.replace x).2.len = h.len + 1 ∧
      (h.replace x).2.root.items = {x}) ∧
    (∀ l r rx, h.root = Tree.node l r rx → rx ≤ x →
      h.replace x = (some rx, ⟨Tree.node l r x, h.len⟩) ∧
      (∀ y ∈ h.root.items, y ≤ rx)) ∧
    (∀ l r rx, h.root = Tree.node l r rx → x < rx →
      (h.replace x).1 = some rx ∧
      (h.replace x).2.root.items = x ::ₘ (h.root.items.erase rx) ∧
      (h.replace x).2.len = h.len ∧ (∀ y ∈ h.root.items, y ≤ rx)) ∧
    x ∈ (h.replace x).2.root.items := by
  have hmem : x ∈ (h.replace x).2.root.items := by
    cases hroot : h.root with
    | nil =>
        simp [SkewHeap.replace, SkewHeap.replaceSlow, SkewHeap.pop_node,
          SkewHeap.push, SkewHeap.push_node, hroot, merge, Tree.items]
    | node l r rx =>
        by_cases hle : rx ≤ x
        · simp [SkewHeap.replace, hroot, hle, Tree.items]
        · simp [SkewHeap.replace, SkewHeap.replaceSlow, SkewHeap.pop_node,
            SkewHeap.push_node, hroot, hle, merge_items, Tree.items]
  refine ⟨?_, ?_, ?_, hmem⟩
  · intro hroot
    have hrp : h.replace x = (none, h.push x) := by
      simp [SkewHeap.replace, SkewHeap.replaceSlow, SkewHeap.pop_node, hroot]
    refine ⟨hrp, by rw [hrp]; rfl, ?_⟩
    rw [hrp]
    simp [SkewHeap.push, SkewHeap.push_node, hroot, merge, Tree.items]
  · intro l r rx hroot hle
    refine ⟨by simp [SkewHeap.replace, hroot, hle], ?_⟩
    intro y hy
    rw [hroot] at hy
    exact le_of_mem_items (hroot ▸ hord) hy
  · intro l r rx hroot hlt
    have hle : ¬ rx ≤ x := not_le.mpr hlt
    have hrp : h.replace x =
        (some rx, ⟨merge (merge l r) (.node .nil .nil x), h.len - 1 + 1⟩) := by
      simp [SkewHeap.replace, SkewHeap.replaceSlow, SkewHeap.pop_node,
        SkewHeap.push_node, hroot, hle]
    refine ⟨by rw [hrp], ?_, ?_, ?_⟩
    · rw [hrp, hroot]
      simp only [merge_items, Tree.items, Multiset.erase_cons_head]
      simp only [← Multiset.singleton_add, add_zero, zero_add]
      abel
    · rw [hrp]
      have : h.len = l.size + r.size + 1 := by
        rw [hlen, hroot]; simp [Tree.size]
      simp only []
      omega
    · intro y hy
      rw [hroot] at hy
      exact le_of_mem_items (hroot ▸ hord) hy

theorem replace_spec_witness :
    ((⟨Tree.node .nil .nil 5, 1⟩ : SkewHeap Int).replace 7
        = (some 5, ⟨Tree.node .nil .nil 7, 1⟩) ∧
      (∀ y ∈ (⟨Tree.node .nil .nil 5, 1⟩ : SkewHeap Int).root.items, y ≤ 5)) ∧
    (7 : Int) ∈ ((⟨Tree.node .nil .nil 5, 1⟩ : SkewHeap Int).replace 7).2.root.items := by
  obtain ⟨-, hfast, -, hmem⟩ :=
    replace_spec (⟨Tree.node .nil .nil 5, 1⟩ : SkewHeap Int) 7
      (by decide) (by decide)
  exact ⟨hfast .nil .nil 5 rfl (by decide), hmem⟩

/-- Claim C7: after `a.append b`, the second heap is a valid empty heap (length
zero, absent peek, empty traversal), the first heap's count is the sum of the
two pre-call counts, and its multiset of items is the union of the two pre-call
multisets. -/
theorem append_spec [LinearOrder α] (a b : SkewHeap α) :
    (a.append b).2 = SkewHeap.new ∧
    (a.append b).2.len = 0 ∧
    (a.append b).2.peek = none ∧
    SkewHeap.iter (a.append b).2 = ⟨[], 0⟩ ∧
    Iter.next (SkewHeap.iter (a.append b).2) = (none, SkewHeap.iter (a.append b).2) ∧
    (a.append b).1.len = a.len + b.len ∧
    (a.append b).1.root.items = a.root.items + b.root.items := by
  refine ⟨rfl, rfl, rfl, rfl, rfl, rfl, ?_⟩
  simp [SkewHeap.append, merge_items]

/-- Claim C8 counterexample: in a both-present iteration of the merge loop in
which step 1 keeps side A (its root item is not smaller), the tree that becomes
the next iteration's `b` is NOT A's pre-skew left child, refuting the claim at
a concrete input (it is A's pre-skew right child, and the loop descends into
the left slot, which now holds the old B). -/
theorem merge_loop_claim_counterexample :
    ¬ ((2 : Int) < 2) ∧
    (mergeLoopIter (Tree.node .nil .nil (1 : Int)) Tree.nil 2
        Tree.nil Tree.nil 2).2.2.2 ≠ Tree.node .nil .nil (1 : Int) ∧
    (mergeLoopIter (Tree.node .nil .nil (1 : Int)) Tree.nil 2
        Tree.nil Tree.nil 2).2.2.2 = Tree.nil := by
  decide

/-- Claim C8 (amended): in every both-present iteration where step 1 keeps side
A and step 2 has exchanged A's children, B is attached as A's new left child,
the subtree displaced from that slot — A's pre-skew RIGHT child — becomes the
new B for the next iteration, and the next iteration descends into the
left-child slot where B was just attached; A's pre-skew left child stays as the
settled node's right child.  Consequently `merge` satisfies the corresponding
unfolding equation. -/
theorem merge_loop_step_amended [LinearOrder α] (al ar : Tree α) (ai : α)
    (bl br : Tree α) (bi : α) (hge : ¬ ai < bi) :
    mergeLoopIter al ar ai bl br bi = (ai, al, Tree.node bl br bi, ar) ∧
    merge (Tree.node al ar ai) (Tree.node bl br bi)
      = Tree.node (merge (Tree.node bl br bi) ar) al ai := by
  refine ⟨by simp [mergeLoopIter, hge], ?_⟩
  rw [merge, if_neg hge]

theorem merge_loop_step_amended_witness :
    mergeLoopIter (Tree.node .nil .nil (1 : Int)) Tree.nil 2 Tree.nil Tree.nil 2
        = (2, Tree.node .nil .nil 1, Tree.node Tree.nil Tree.nil 2, Tree.nil) ∧
    merge (Tree.node (Tree.node .nil .nil (1 : Int)) Tree.nil 2)
        (Tree.node Tree.nil Tree.nil 2)
      = Tree.node (merge (Tree.node Tree.nil Tree.nil 2) Tree.nil)
          (Tree.node .nil .nil 1) 2 :=
  merge_loop_step_amended _ _ _ _ _ _ (by decide)

/-- Claim C9: every public operation terminates on every finite heap: the
iterative merge loop finishes within `size a + size b + 1` iterations for every
pair of finite input trees, and the consuming rotation walker terminates and
visits every node of any finite tree (its full drain has exactly `size t`
items and carries the tree's whole multiset), so drop, clear, and the consuming
iterator always complete. -/
theorem operations_terminate [LinearOrder α] :
    (∀ a b : Tree α, mergeF (a.size + b.size + 1) a b = some (merge a b)) ∧
    (∀ t : Tree α, (drain t).length = t.size ∧
      ((drain t : List α) : Multiset α) = t.items) :=
  ⟨fun a b => mergeF_sufficient _ a b (by omega),
   fun t => ⟨drain_length t, drain_items t⟩⟩

/-- Claim C10: for both the borrowing iterator and the consuming iterator,
`next_back` returns exactly what `next` would return in the same state, so
backward iteration yields the items in forward order, not reversed. -/
theorem next_back_eq_next (α : Type) :
    (∀ it : IntoIter α, IntoIter.next_back it = IntoIter.next it) ∧
    (∀ it : Iter α, Iter.next_back it = Iter.next it) :=
  ⟨fun _ => rfl, fun _ => rfl⟩

end Skew
